import Mathlib

/-!
Verification of the `backbones` weights I/O and key-remapping layer.

The development shallowly embeds the Python modules
`backbones/_io.py`, `backbones/_cli.py` and the two conversion scripts
`convert_torchvision_resnet.py` / `convert_detectron2_resnet.py`.

Python dictionaries are embedded as association lists (`List (k × v)`),
dynamically typed Python values as the inductive `PyVal`, and a raised
exception as the `Except.error` branch carrying a message string prefixed
with the Python exception class.
-/

namespace Backbones

/-- Opaque tensor payload: the core only moves tensors, never computes on
them, so a tensor is its dtype, shape and raw bytes. -/
structure Tensor where
  dtype : String
  shape : List Nat
  bytes : List Nat
  deriving DecidableEq, Repr

/-- Dynamically typed Python values, as far as the embedded code inspects
them (`isinstance` checks on `str`, `torch.Tensor`, `dict`, and the
`is None` test). -/
inductive PyVal where
  | str (s : String)
  | int (n : Int)
  | tensor (t : Tensor)
  | pynone
  | dict (entries : List (PyVal × PyVal))

/-- Rendering of `type(v)` as CPython prints it. -/
def pyType : PyVal → String
  | .str _ => "<class \x27str\x27>"
  | .int _ => "<class \x27int\x27>"
  | .tensor _ => "<class \x27torch.Tensor\x27>"
  | .pynone => "<class \x27NoneType\x27>"
  | .dict _ => "<class \x27dict\x27>"

/-- Test `isinstance(v, str)`. -/
def PyVal.isStr : PyVal → Bool
  | .str _ => true
  | _ => false

/-- Test `isinstance(v, torch.Tensor)`. -/
def PyVal.isTensor : PyVal → Bool
  | .tensor _ => true
  | _ => false

/-- Test `v is None`. -/
def PyVal.isNone : PyVal → Bool
  | .pynone => true
  | _ => false

/-- Embeds `check_data` (`_io.py` lines 55-62): raises `TypeError` when the
argument is not a dict, otherwise returns whether every key is a `str` and
every value a `torch.Tensor`. -/
def check_data (state : PyVal) : Except String Bool :=
  match state with
  | .dict entries => .ok (entries.all fun kv => kv.1.isStr && kv.2.isTensor)
  | s => .error ("TypeError: Expected state to be a dict, got " ++ pyType s)

/-- Embeds `check_meta` (`_io.py` lines 85-90): raises `TypeError` when the
argument is not a dict, otherwise returns whether every value and every key
(chained in that order, as in the source) is a `str`. -/
def check_meta (meta : PyVal) : Except String Bool :=
  match meta with
  | .dict entries =>
      .ok ((entries.map Prod.snd ++ entries.map Prod.fst).all PyVal.isStr)
  | m => .error ("TypeError: Expected metadata to be a dict, got " ++ pyType m)

/-- The persisted safetensors artifact: a flat mapping from string key to
tensor payload plus an optional string-to-string metadata block. -/
structure Artifact where
  tensors : List (String × Tensor)
  meta : Option (List (String × String))
  deriving DecidableEq

/-- Wraps a typed weight mapping as the Python dict object it decodes to. -/
def wrapData (td : List (String × Tensor)) : PyVal :=
  .dict (td.map fun p => (.str p.1, .tensor p.2))

/-- Wraps a typed metadata mapping as the Python dict object it decodes to. -/
def wrapMeta (tm : List (String × String)) : PyVal :=
  .dict (tm.map fun p => (.str p.1, .str p.2))

/-- Modelled from the spec: the external `safetensors.torch.load_file`
collaborator (not part of this repository) decodes the artifact's tensor
block into a dict from string key to tensor, materialized on the requested
device; the byte-exact tensor payloads are unchanged by device placement. -/
def stLoadFile (a : Artifact) (_device : String) : PyVal :=
  wrapData a.tensors

/-- Modelled from the spec: the external `safe_open(...).metadata()`
collaborator returns the decoded metadata block, or `None` when the artifact
has no metadata block. -/
def stMetadata (a : Artifact) : PyVal :=
  match a.meta with
  | none => .pynone
  | some tm => wrapMeta tm

/-- Extracts a typed weight mapping from a Python dict body, succeeding only
when every key is a `str` and every value a tensor. -/
def extractData : List (PyVal × PyVal) → Option (List (String × Tensor))
  | [] => some []
  | (.str k, .tensor t) :: rest => (extractData rest).map fun l => (k, t) :: l
  | _ :: _ => none

/-- Extracts a typed metadata mapping from a Python dict body, succeeding
only when every key and value is a `str`. -/
def extractMeta : List (PyVal × PyVal) → Option (List (String × String))
  | [] => some []
  | (.str k, .str v) :: rest => (extractMeta rest).map fun l => (k, v) :: l
  | _ :: _ => none

/-- Modelled from the spec: the external `safetensors.torch.save_file`
collaborator validates that the weight mapping is string-to-tensor and the
metadata mapping string-to-string, and rejects the record BEFORE writing any
bytes; on success the artifact holds exactly the given maps. -/
def stSaveFile (data : List (PyVal × PyVal)) (meta : List (PyVal × PyVal)) :
    Except String Artifact :=
  match extractData data, extractMeta meta with
  | some td, some tm => .ok ⟨td, some tm⟩
  | _, _ => .error "ValidationError: save_file rejected a malformed record"

/-- Embeds `load_data` (`_io.py` lines 32-52): decode the artifact, then
raise `TypeError` unless `check_data` accepts the decoded dict (a raise from
`check_data` itself propagates). -/
def load_data (a : Artifact) (device : String) : Except String PyVal := do
  let data := stLoadFile a device
  let ok ← check_data data
  if ok then
    pure data
  else
    throw "TypeError: Expected states to be a mapping \x7bstr\x7d -> \x7bTensor\x7d"

/-- Embeds `load_meta` after the `file.metadata()` call (`_io.py` lines
68-82), over the decoded metadata object `data`. -/
def load_meta_core (data : PyVal) (missing_ok : Bool) : Except String PyVal := do
  if data.isNone && missing_ok then
    pure (.dict [])
  else
    let ok ← check_meta data
    if ok then
      pure data
    else
      throw "TypeError: Expected metadata to be a mapping str -> Tensor"

/-- Embeds `load_meta` (`_io.py` lines 65-82): read only the metadata block
of the artifact and validate it. -/
def load_meta (a : Artifact) (missing_ok : Bool) : Except String PyVal :=
  load_meta_core (stMetadata a) missing_ok

/-- Embeds `load_weights` (`_io.py` lines 98-105): the pair of `load_data`
and `load_meta` with its default `missing_ok := true`. -/
def load_weights (a : Artifact) (device : String) :
    Except String (PyVal × PyVal) := do
  let d ← load_data a device
  let m ← load_meta a true
  pure (d, m)

/-- Embeds `save_weights` (`_io.py` lines 108-114): destructure the record
and hand both maps to the external serializer. -/
def save_weights (wt : PyVal × PyVal) : Except String Artifact :=
  match wt with
  | (.dict d, .dict m) => stSaveFile d m
  | _ => .error "TypeError: cannot unpack weights record"

/-- State of the target path after a `save_weights` call: the new artifact
on success, the previous content (possibly no file) when the save raised. -/
def fsAfterSave (prev : Option Artifact) (wt : PyVal × PyVal) : Option Artifact :=
  match save_weights wt with
  | .ok a => some a
  | .error _ => prev

/-- A decoded metadata object that is a mapping from string to string. -/
def isStrStrDict (m : PyVal) : Prop :=
  ∃ entries, m = .dict entries ∧ ∀ p ∈ entries, p.1.isStr = true ∧ p.2.isStr = true

theorem extractData_wrap (td : List (String × Tensor)) :
    extractData (td.map fun p => ((.str p.1 : PyVal), (.tensor p.2 : PyVal))) = some td := by
  induction td with
  | nil => rfl
  | cons p rest ih => cases p; simp [extractData, ih]

theorem extractMeta_wrap (tm : List (String × String)) :
    extractMeta (tm.map fun p => ((.str p.1 : PyVal), (.str p.2 : PyVal))) = some tm := by
  induction tm with
  | nil => rfl
  | cons p rest ih => cases p; simp [extractMeta, ih]

theorem check_data_wrapData (td : List (String × Tensor)) :
    check_data (wrapData td) = .ok true := by
  simp [check_data, wrapData, List.all_eq_true]
  rintro a b x x1 - rfl rfl
  exact ⟨rfl, rfl⟩

theorem check_meta_wrapMeta (tm : List (String × String)) :
    check_meta (wrapMeta tm) = .ok true := by
  simp [check_meta, wrapMeta, List.all_eq_true]
  constructor
  · rintro x x1 x2 - rfl
    rfl
  · rintro x x1 x2 - rfl
    rfl

theorem load_data_artifact (a : Artifact) (device : String) :
    load_data a device = .ok (wrapData a.tensors) := by
  have h1 : check_data (wrapData a.tensors) = .ok true := check_data_wrapData a.tensors
  simp [load_data, stLoadFile, h1, Bind.bind, Except.bind, pure, Except.pure]

theorem load_meta_some (ts : List (String × Tensor)) (tm : List (String × String))
    (mo : Bool) : load_meta ⟨ts, some tm⟩ mo = .ok (wrapMeta tm) := by
  have h0 : (wrapMeta tm).isNone = false := rfl
  have h1 : check_meta (wrapMeta tm) = .ok true := check_meta_wrapMeta tm
  simp [load_meta, stMetadata, load_meta_core, h0, h1, Bind.bind, Except.bind, pure,
    Except.pure]

theorem extractData_sound :
    ∀ {l : List (PyVal × PyVal)} {tl}, extractData l = some tl →
      ∀ p ∈ l, p.1.isStr = true ∧ p.2.isTensor = true := by
  intro l
  induction l with
  | nil => simp
  | cons q rest ih =>
    intro tl h p hp
    obtain ⟨a, b⟩ := q
    rw [List.mem_cons] at hp
    cases a <;> cases b <;> simp [extractData] at h
    obtain ⟨l₀, hl₀, -⟩ := h
    rcases hp with rfl | hp
    · exact ⟨rfl, rfl⟩
    · exact ih hl₀ p hp

theorem extractMeta_sound :
    ∀ {l : List (PyVal × PyVal)} {tl}, extractMeta l = some tl →
      ∀ p ∈ l, p.1.isStr = true ∧ p.2.isStr = true := by
  intro l
  induction l with
  | nil => simp
  | cons q rest ih =>
    intro tl h p hp
    obtain ⟨a, b⟩ := q
    rw [List.mem_cons] at hp
    cases a <;> cases b <;> simp [extractMeta] at h
    obtain ⟨l₀, hl₀, -⟩ := h
    rcases hp with rfl | hp
    · exact ⟨rfl, rfl⟩
    · exact ih hl₀ p hp

/-- C1: saving a WeightsRecord with a non-empty string-to-tensor WeightMap
and string-to-string MetadataMap and loading it back yields exactly the same
record: the weight map key-for-key with bit-exact tensor payloads and the
metadata map exactly. -/
theorem save_load_round_trip (td : List (String × Tensor))
    (tm : List (String × String)) (device : String) (_h : td ≠ []) :
    save_weights (wrapData td, wrapMeta tm) = .ok ⟨td, some tm⟩ ∧
      load_weights ⟨td, some tm⟩ device = .ok (wrapData td, wrapMeta tm) := by
  constructor
  · simp [save_weights, wrapData, wrapMeta, stSaveFile, extractData_wrap,
      extractMeta_wrap]
  · simp [load_weights, load_data_artifact, load_meta_some, Bind.bind,
      Except.bind, pure, Except.pure]

/-- Closed instance of the round-trip theorem on a concrete one-tensor
record with one metadata entry. -/
theorem save_load_round_trip_witness :
    ([("w", (⟨"F32", [2], [0, 1]⟩ : Tensor))] ≠ ([] : List (String × Tensor))) ∧
      (save_weights (wrapData [("w", ⟨"F32", [2], [0, 1]⟩)], wrapMeta [("config", "c")]) =
          .ok ⟨[("w", ⟨"F32", [2], [0, 1]⟩)], some [("config", "c")]⟩ ∧
        load_weights ⟨[("w", ⟨"F32", [2], [0, 1]⟩)], some [("config", "c")]⟩ "cpu" =
          .ok (wrapData [("w", ⟨"F32", [2], [0, 1]⟩)], wrapMeta [("config", "c")])) :=
  ⟨by simp, save_load_round_trip [("w", ⟨"F32", [2], [0, 1]⟩)] [("config", "c")] "cpu"
    (by simp)⟩

/-- C2: a record with a non-string weight key, a non-tensor weight value, or
a non-string metadata value makes `save_weights` fail before writing: the
save returns an error and a previously non-existent target path stays
non-existent. -/
theorem save_weights_rejects (d m : List (PyVal × PyVal))
    (h : (∃ p ∈ d, p.1.isStr = false) ∨ (∃ p ∈ d, p.2.isTensor = false) ∨
      (∃ p ∈ m, p.2.isStr = false)) :
    (∃ e, save_weights (.dict d, .dict m) = .error e) ∧
      fsAfterSave none (.dict d, .dict m) = none := by
  have herr : ∃ e, save_weights (.dict d, .dict m) = .error e := by
    simp only [save_weights, stSaveFile]
    cases hd : extractData d with
    | none => exact ⟨_, rfl⟩
    | some td =>
      cases hm : extractMeta m with
      | none => exact ⟨_, rfl⟩
      | some tm =>
        exfalso
        rcases h with ⟨p, hp, hbad⟩ | ⟨p, hp, hbad⟩ | ⟨p, hp, hbad⟩
        · have := (extractData_sound hd p hp).1
          simp [this] at hbad
        · have := (extractData_sound hd p hp).2
          simp [this] at hbad
        · have := (extractMeta_sound hm p hp).2
          simp [this] at hbad
  obtain ⟨e, he⟩ := herr
  exact ⟨⟨e, he⟩, by simp [fsAfterSave, he]⟩

/-- Closed instance: a weight map with the integer key `1` is rejected and
no file appears at a fresh path. -/
theorem save_weights_rejects_witness :
    ((∃ p ∈ [((.int 1 : PyVal), (.tensor ⟨"F32", [], []⟩ : PyVal))], p.1.isStr = false) ∨
      (∃ p ∈ [((.int 1 : PyVal), (.tensor ⟨"F32", [], []⟩ : PyVal))], p.2.isTensor = false) ∨
      (∃ p ∈ ([] : List (PyVal × PyVal)), p.2.isStr = false)) ∧
      ((∃ e, save_weights (.dict [((.int 1 : PyVal), (.tensor ⟨"F32", [], []⟩ : PyVal))], .dict []) = .error e) ∧
        fsAfterSave none (.dict [((.int 1 : PyVal), (.tensor ⟨"F32", [], []⟩ : PyVal))], .dict []) = none) :=
  ⟨Or.inl ⟨_, List.mem_singleton.mpr rfl, rfl⟩,
    save_weights_rejects _ _ (Or.inl ⟨_, List.mem_singleton.mpr rfl, rfl⟩)⟩

/-- C5 counterexample: `check_data` on the non-dict value `3` raises a
`TypeError` instead of returning `False`. -/
theorem check_data_nondict_cex :
    check_data (.int 3) =
      .error "TypeError: Expected state to be a dict, got <class \x27int\x27>" := rfl

/-- C5 (amended): on dict inputs `check_data` returns, without raising, the
boolean stating whether the value is a mapping from string keys to tensor
values; on non-dict inputs it raises a `TypeError` rather than returning
`False`. -/
theorem check_data_amended :
    (∀ entries : List (PyVal × PyVal), ∃ b, check_data (.dict entries) = .ok b ∧
        (b = true ↔ ∀ p ∈ entries, p.1.isStr = true ∧ p.2.isTensor = true)) ∧
      (∀ v : PyVal, (∀ entries, v ≠ .dict entries) → ∃ msg, check_data v = .error msg) := by
  constructor
  · intro entries
    refine ⟨_, rfl, ?_⟩
    simp [List.all_eq_true, Bool.and_eq_true]
  · intro v hv
    cases v with
    | str s => exact ⟨_, rfl⟩
    | int n => exact ⟨_, rfl⟩
    | tensor t => exact ⟨_, rfl⟩
    | pynone => exact ⟨_, rfl⟩
    | dict e => exact absurd rfl (hv e)

/-- Closed instance of the amended C5 theorem at the non-dict value `None`. -/
theorem check_data_amended_witness :
    ∃ msg, check_data .pynone = .error msg :=
  check_data_amended.2 .pynone (fun _ h => PyVal.noConfusion h)

/-- C6: on an artifact without a metadata block, `load_meta` returns the
empty map when `missing_ok` is true and raises when it is false; and when
the decoded metadata block exists but is not a string-to-string mapping,
`load_meta` raises regardless of `missing_ok`. -/
theorem load_meta_missing_malformed (ts : List (String × Tensor)) (m : PyVal)
    (mo : Bool) (hm : m.isNone = false) (hss : ¬ isStrStrDict m) :
    load_meta ⟨ts, none⟩ true = .ok (.dict []) ∧
      (∃ e, load_meta ⟨ts, none⟩ false = .error e) ∧
      (∃ e, load_meta_core m mo = .error e) := by
  refine ⟨?_, ?_, ?_⟩
  · rfl
  · exact ⟨_, rfl⟩
  · cases m with
    | pynone => simp [PyVal.isNone] at hm
    | str s => exact ⟨_, rfl⟩
    | int n => exact ⟨_, rfl⟩
    | tensor t => exact ⟨_, rfl⟩
    | dict entries =>
      have hbad : ¬ ∀ p ∈ entries, p.1.isStr = true ∧ p.2.isStr = true := by
        intro hall
        exact hss ⟨entries, rfl, hall⟩
      have hfalse :
          ((entries.map Prod.snd ++ entries.map Prod.fst).all PyVal.isStr) = false := by
        rw [Bool.eq_false_iff]
        intro hall
        apply hbad
        intro p hp
        rw [List.all_eq_true] at hall
        exact ⟨hall p.1 (List.mem_append_right _ (List.mem_map_of_mem Prod.fst hp)),
          hall p.2 (List.mem_append_left _ (List.mem_map_of_mem Prod.snd hp))⟩
      have herr : load_meta_core (.dict entries) mo =
          .error "TypeError: Expected metadata to be a mapping str -> Tensor" := by
        simp [load_meta_core, PyVal.isNone, check_meta, hfalse, Bind.bind, Except.bind,
          throw, throwThe, MonadExceptOf.throw]
      exact ⟨_, herr⟩

/-- Closed instance of the C6 theorem on an artifact with no metadata block
and the malformed decoded metadata `\x7b"a": 1\x7d`. -/
theorem load_meta_missing_malformed_witness :
    (PyVal.dict [((.str "a" : PyVal), (.int 1 : PyVal))]).isNone = false ∧
      ¬ isStrStrDict (.dict [((.str "a" : PyVal), (.int 1 : PyVal))]) ∧
      (load_meta ⟨[], none⟩ true = .ok (.dict []) ∧
        (∃ e, load_meta ⟨[], none⟩ false = .error e) ∧
        (∃ e, load_meta_core (.dict [((.str "a" : PyVal), (.int 1 : PyVal))]) true = .error e)) := by
  have hss : ¬ isStrStrDict (.dict [((.str "a" : PyVal), (.int 1 : PyVal))]) := by
    rintro ⟨entries, he, hall⟩
    cases he
    have := (hall _ (List.mem_singleton.mpr rfl)).2
    simp [PyVal.isStr] at this
  exact ⟨rfl, hss, load_meta_missing_malformed [] _ true rfl hss⟩

/-- Replacement of every non-overlapping occurrence of `p` by `r`, scanning
left to right, as CPython `str.replace` does for a non-empty pattern. The
fuel argument is instantiated with the string length, which one scanning
step always stays below since a match consumes at least one character. -/
def listReplaceAux (p r : List Char) : Nat → List Char → List Char
  | _, [] => []
  | 0, s => s
  | fuel + 1, c :: cs =>
    if p.isPrefixOf (c :: cs) && !p.isEmpty then
      r ++ listReplaceAux p r fuel ((c :: cs).drop p.length)
    else
      c :: listReplaceAux p r fuel cs

/-- Embeds Python `s.replace(old, new)` for the non-empty literal patterns
used by the conversion scripts. -/
def pyReplace (s old new : String) : String :=
  ⟨listReplaceAux old.data new.data s.data.length s.data⟩

/-- Whether the non-empty pattern `p` occurs anywhere in the string, with
the same matching convention as `listReplaceAux`. -/
def listOccurs (p : List Char) : List Char → Bool
  | [] => false
  | c :: cs => (p.isPrefixOf (c :: cs) && !p.isEmpty) || listOccurs p cs

/-- Whether the pattern string occurs in `s` (Python `p in s` for the
non-empty patterns of the scripts). -/
def pyOccurs (s p : String) : Bool :=
  listOccurs p.data s.data

theorem listReplaceAux_no_occur (p r : List Char) :
    ∀ (s : List Char), listOccurs p s = false → ∀ fuel, listReplaceAux p r fuel s = s := by
  intro s
  induction s with
  | nil => intro h fuel; cases fuel <;> rfl
  | cons c cs ih =>
    intro h fuel
    rw [listOccurs, Bool.or_eq_false_iff] at h
    cases fuel with
    | zero => rfl
    | succ n =>
      rw [listReplaceAux, if_neg (by simp [h.1])]
      rw [ih h.2 n]

theorem pyReplace_no_occur (s old new : String) (h : pyOccurs s old = false) :
    pyReplace s old new = s := by
  unfold pyReplace
  rw [listReplaceAux_no_occur old.data new.data s.data h]

/-- Embeds the key-remapping chain of `convert_torchvision_resnet.py`
(lines 55-61): five sequential `str.replace` applications, each applied to
the output of the previous one. -/
def remapTV (k : String) : String :=
  pyReplace (pyReplace (pyReplace (pyReplace (pyReplace k "layer" "ext")
    "bn" "norm") "downsample" "residual") "residual.0" "residual.conv")
    "residual.1" "residual.norm"

/-- C8: the ordered rules compose sequentially — the `downsample`→`residual`
rule first produces `residual.0`, which the later `residual.0`→`residual.conv`
rule then rewrites — and a key containing none of the rule patterns is
carried through unchanged. -/
theorem remap_rules_sequential (k : String)
    (h : pyOccurs k "layer" = false ∧ pyOccurs k "bn" = false ∧
      pyOccurs k "downsample" = false ∧ pyOccurs k "residual.0" = false ∧
      pyOccurs k "residual.1" = false) :
    pyReplace (pyReplace (pyReplace "layer1.0.downsample.0.weight" "layer" "ext")
        "bn" "norm") "downsample" "residual" = "ext1.0.residual.0.weight" ∧
      pyReplace "ext1.0.residual.0.weight" "residual.0" "residual.conv" =
        "ext1.0.residual.conv.weight" ∧
      remapTV "layer1.0.downsample.0.weight" = "ext1.0.residual.conv.weight" ∧
      remapTV k = k := by
  obtain ⟨h1, h2, h3, h4, h5⟩ := h
  refine ⟨by decide, by decide, by decide, ?_⟩
  unfold remapTV
  rw [pyReplace_no_occur k "layer" "ext" h1]
  rw [pyReplace_no_occur k "bn" "norm" h2]
  rw [pyReplace_no_occur k "downsample" "residual" h3]
  rw [pyReplace_no_occur k "residual.0" "residual.conv" h4]
  rw [pyReplace_no_occur k "residual.1" "residual.norm" h5]

/-- Closed instance of the sequential-rules theorem at the untouched key
`stem.conv.weight`. -/
theorem remap_rules_sequential_witness :
    (pyOccurs "stem.conv.weight" "layer" = false ∧
      pyOccurs "stem.conv.weight" "bn" = false ∧
      pyOccurs "stem.conv.weight" "downsample" = false ∧
      pyOccurs "stem.conv.weight" "residual.0" = false ∧
      pyOccurs "stem.conv.weight" "residual.1" = false) ∧
      remapTV "stem.conv.weight" = "stem.conv.weight" :=
  ⟨by decide, (remap_rules_sequential "stem.conv.weight" (by decide)).2.2.2⟩

/-- Looks a key up in an association-list dict (Python `m[k]` or `k in m`). -/
def findVal {V : Type} : List (String × V) → String → Option V
  | [], _ => none
  | (k', v) :: rest, k => if k' = k then some v else findVal rest k

/-- Embeds Python dict assignment `m[k] = v`: replaces the value in place
when the key exists, appends the entry otherwise. -/
def dictSet {V : Type} (m : List (String × V)) (k : String) (v : V) :
    List (String × V) :=
  if (findVal m k).isSome then
    m.map fun p => if p.1 = k then (k, v) else p
  else
    m ++ [(k, v)]

/-- Embeds the remap loops of both conversion scripts (torchvision lines
54-68, detectron2 lines 64-75): for each remaining entry, rename the key by
`f` and assign the tensor into the output dict. -/
def remapLoop {V : Type} (f : String → String) (init : List (String × V))
    (items : List (String × V)) : List (String × V) :=
  items.foldl (fun acc p => dictSet acc (f p.1) p.2) init

/-- C3 counterexample: the two distinct source keys `layer1.a` and `ext1.a`
both map to the output key `ext1.a`; the loop silently keeps only the later
entry instead of failing, so a 2-entry input yields a 1-entry output. -/
theorem remap_collision_cex :
    remapLoop remapTV ([] : List (String × Nat)) [("layer1.a", 0), ("ext1.a", 1)] =
      [("ext1.a", 1)] := by decide

theorem findVal_eq_none_iff {V : Type} (m : List (String × V)) (k : String) :
    findVal m k = none ↔ k ∉ m.map Prod.fst := by
  induction m with
  | nil => simp [findVal]
  | cons p rest ih =>
    obtain ⟨k', v⟩ := p
    simp only [findVal, List.map_cons, List.mem_cons]
    by_cases hk : k' = k
    · subst hk
      simp
    · rw [if_neg hk, ih]
      constructor
      · intro hnot hmem
        rcases hmem with h1 | h2
        · exact hk h1.symm
        · exact hnot h2
      · intro hnot h2
        exact hnot (Or.inr h2)

theorem remapLoop_keys {V : Type} (f : String → String) :
    ∀ (items acc : List (String × V)),
      (acc.map Prod.fst ++ items.map fun p => f p.1).Nodup →
      (remapLoop f acc items).map Prod.fst =
        acc.map Prod.fst ++ items.map fun p => f p.1 := by
  intro items
  induction items with
  | nil => intro acc h; simp [remapLoop]
  | cons p rest ih =>
    intro acc h
    obtain ⟨k, v⟩ := p
    have hnotin : f k ∉ acc.map Prod.fst := by
      intro hmem
      rcases List.nodup_append.mp h with ⟨-, -, hdisj⟩
      exact hdisj hmem (by simp)
    have hfind : findVal acc (f k) = none :=
      (findVal_eq_none_iff acc (f k)).mpr hnotin
    have hset : dictSet acc (f k) v = acc ++ [(f k, v)] := by
      simp [dictSet, hfind]
    have hstep : remapLoop f acc ((k, v) :: rest) =
        remapLoop f (acc ++ [(f k, v)]) rest := by
      simp [remapLoop, hset]
    rw [hstep, ih (acc ++ [(f k, v)]) (by simpa using h)]
    simp

/-- C3 (amended): when the renamed keys are pairwise distinct the remap loop
yields exactly one output entry per input entry, with the renamed keys in
input order; when two source keys collide on one output key the later entry
silently overwrites the earlier one and no error is raised. -/
theorem remap_loop_bijection {V : Type} (f : String → String)
    (items : List (String × V)) (hinj : (items.map fun p => f p.1).Nodup) :
    (remapLoop f [] items).map Prod.fst = items.map (fun p => f p.1) ∧
      (remapLoop f [] items).length = items.length := by
  have h := remapLoop_keys f items [] (by simpa using hinj)
  simp only [List.map_nil, List.nil_append] at h
  refine ⟨h, ?_⟩
  have := congrArg List.length h
  simpa using this

/-- Closed instance of the amended C3 theorem on a two-entry collision-free
input. -/
theorem remap_loop_bijection_witness :
    (([("layer1.a", (0 : Nat)), ("bn1.b", 1)].map fun p => remapTV p.1).Nodup) ∧
      ((remapLoop remapTV [] [("layer1.a", (0 : Nat)), ("bn1.b", 1)]).map Prod.fst =
          [("layer1.a", (0 : Nat)), ("bn1.b", 1)].map (fun p => remapTV p.1) ∧
        (remapLoop remapTV [] [("layer1.a", (0 : Nat)), ("bn1.b", 1)]).length =
          [("layer1.a", (0 : Nat)), ("bn1.b", 1)].length) :=
  ⟨by decide, remap_loop_bijection remapTV _ (by decide)⟩

/-- Atoms of the regular expressions used by `convert_detectron2_resnet.py`:
a literal character, the unescaped `.` wildcard, a single-digit capture
`(\d)` and a greedy multi-digit capture `(\d+)`. -/
inductive RAtom where
  | lit (c : Char)
  | anyc
  | capDigit
  | capDigits

/-- A pattern: an optional `^` start anchor followed by a sequence of atoms. -/
structure RPat where
  anchored : Bool
  atoms : List RAtom

/-- A piece of a replacement template: literal text or a backreference to a
capture group (1-based, as in `\1`). -/
inductive TPart where
  | lit (s : String)
  | group (n : Nat)

/-- A replacement: either a template with backreferences, or a function of
the capture groups (the script's `lambda match: ...` rule). -/
inductive RRepl where
  | tpl (parts : List TPart)
  | byFn (f : List String → String)

/-- Matches an atom sequence at the start of a character list, returning the
unconsumed rest and the capture groups in order. `(\d+)` takes the maximal
digit run, which coincides with backtracking semantics for the script's
patterns because nothing follows `(\d+)` in them. -/
def matchAtoms : List RAtom → List Char → Option (List Char × List String)
  | [], s => some (s, [])
  | .lit c :: as, s =>
    match s with
    | [] => none
    | c' :: s' => if c' = c then matchAtoms as s' else none
  | .anyc :: as, s =>
    match s with
    | [] => none
    | _ :: s' => matchAtoms as s'
  | .capDigit :: as, s =>
    match s with
    | [] => none
    | c' :: s' =>
      if c'.isDigit then
        (matchAtoms as s').map fun r => (r.1, String.mk [c'] :: r.2)
      else none
  | .capDigits :: as, s =>
    let ds := s.takeWhile Char.isDigit
    if ds.isEmpty then none
    else (matchAtoms as (s.drop ds.length)).map fun r => (r.1, String.mk ds :: r.2)

/-- Expands one template piece against the capture groups. -/
def applyTPart (gs : List String) (acc : String) : TPart → String
  | .lit t => acc ++ t
  | .group n => acc ++ gs.getD (n - 1) ""

/-- Produces the replacement text for one match. -/
def applyRepl (rep : RRepl) (gs : List String) : String :=
  match rep with
  | .tpl parts => parts.foldl (applyTPart gs) ""
  | .byFn f => f gs

/-- Left-to-right scan of `re.sub` for an unanchored pattern: replace each
non-overlapping match and continue after it. The scripts' patterns always
consume at least one character, so the guard against empty-width matches
never fires and fuel equal to the string length suffices. -/
def subGo (atoms : List RAtom) (rep : RRepl) : Nat → List Char → List Char
  | _, [] => []
  | 0, s => s
  | fuel + 1, c :: cs =>
    match matchAtoms atoms (c :: cs) with
    | some (rest, gs) =>
      if rest.length < cs.length + 1 then
        (applyRepl rep gs).data ++ subGo atoms rep fuel rest
      else
        c :: subGo atoms rep fuel cs
    | none => c :: subGo atoms rep fuel cs

/-- Embeds `pattern.sub(repl, s)`: a `^`-anchored pattern can only match at
position zero (no MULTILINE flag), an unanchored pattern is applied at every
position left to right. -/
def regexSub (p : RPat) (rep : RRepl) (s : String) : String :=
  if p.anchored then
    match matchAtoms p.atoms s.data with
    | some (rest, gs) => applyRepl rep gs ++ String.mk rest
    | none => s
  else
    String.mk (subGo p.atoms rep s.data.length s.data)

/-- Literal atoms for a run of plain characters. -/
def lits (s : String) : List RAtom :=
  s.data.map RAtom.lit

/-- Python `int` on the non-empty digit string produced by a `\d+` capture. -/
def digitsToInt (s : String) : Int :=
  Int.ofNat (s.data.foldl (fun n c => 10 * n + (c.toNat - 48)) 0)

/-- Embeds the ordered `REPLACE` table of `convert_detectron2_resnet.py`
(lines 18-23): the stage rule `^res(\d+)` with the replacement
`lambda match: "ext" + str(int(match.group(1)) - 1)`, then `conv(\d).norm`
to `norm\1`, `shortcut` to `residual`, and `residual.weight` to
`residual.conv.weight` (the dots of the last two patterns are unescaped
wildcards in the source). -/
def REPLACE : List (RPat × RRepl) :=
  [ (⟨true, lits "res" ++ [.capDigits]⟩,
      .byFn fun gs => "ext" ++ toString (digitsToInt (gs.getD 0 "") - 1)),
    (⟨false, lits "conv" ++ [.capDigit, .anyc] ++ lits "norm"⟩,
      .tpl [.lit "norm", .group 1]),
    (⟨false, lits "shortcut"⟩, .tpl [.lit "residual"]),
    (⟨false, lits "residual" ++ [.anyc] ++ lits "weight"⟩,
      .tpl [.lit "residual.conv.weight"]) ]

/-- Embeds the detectron2 remap loop body (lines 64-68): each `REPLACE`
rule's `sub` applied in order to the key produced by the previous rule. -/
def remapD2 (k : String) : String :=
  REPLACE.foldl (fun s pr => regexSub pr.1 pr.2 s) k

/-- C7: the stage-renumbering rule decrements the captured stage index and
prefixes `ext`, so the full ordered rule list maps `res2.0.conv1.weight` to
`ext1.0.conv1.weight`. -/
theorem detectron2_stage_rule :
    remapD2 "res2.0.conv1.weight" = "ext1.0.conv1.weight" := by decide

/-- Removes the entry with the given key (Python `del m[k]` / the removal
half of `m.pop(k)`); dict keys are unique, so only the first hit matters. -/
def eraseKey {V : Type} : List (String × V) → String → List (String × V)
  | [], _ => []
  | (k', v) :: rest, k => if k' = k then rest else (k', v) :: eraseKey rest k

/-- Embeds Python `m.pop(k)` without default: the value and the shrunken
dict, or a `KeyError` when the key is absent. -/
def popKey {V : Type} (m : List (String × V)) (k : String) :
    Except String (V × List (String × V)) :=
  match findVal m k with
  | some v => .ok (v, eraseKey m k)
  | none => .error ("KeyError: \x27" ++ k ++ "\x27")

/-- Embeds the guarded pop `if k in m: ... m.pop(k)` used for the optional
head tensors: the value when present, and the dict with the entry removed. -/
def popOpt {V : Type} (m : List (String × V)) (k : String) :
    Option V × List (String × V) :=
  match findVal m k with
  | some v => (some v, eraseKey m k)
  | none => (none, m)

theorem findVal_eraseKey_ne {V : Type} (m : List (String × V)) (k k' : String)
    (h : k' ≠ k) : findVal (eraseKey m k) k' = findVal m k' := by
  induction m with
  | nil => rfl
  | cons p rest ih =>
    obtain ⟨a, v⟩ := p
    by_cases ha : a = k
    · subst ha
      rw [eraseKey, if_pos rfl, findVal, if_neg fun hc => h hc.symm]
    · by_cases ha' : a = k'
      · subst ha'
        simp [eraseKey, findVal, ha]
      · simp [eraseKey, findVal, ha, ha', ih]

theorem findVal_eraseKey_self {V : Type} (m : List (String × V)) (k : String)
    (h : (m.map Prod.fst).Nodup) : findVal (eraseKey m k) k = none := by
  induction m with
  | nil => rfl
  | cons p rest ih =>
    obtain ⟨a, v⟩ := p
    simp only [List.map_cons, List.nodup_cons] at h
    by_cases ha : a = k
    · subst ha
      simp only [eraseKey, if_pos rfl]
      rw [findVal_eq_none_iff]
      exact h.1
    · simp [eraseKey, findVal, ha, ih h.2]

theorem eraseKey_subset {V : Type} :
    ∀ (l : List (String × V)) (k₀ : String) {x}, x ∈ eraseKey l k₀ → x ∈ l := by
  intro l
  induction l with
  | nil => intro k₀ x hx; cases hx
  | cons q tail ihl =>
    intro k₀ x hx
    obtain ⟨b, w⟩ := q
    by_cases hq : b = k₀
    · rw [eraseKey, if_pos hq] at hx
      exact List.mem_cons_of_mem _ hx
    · rw [eraseKey, if_neg hq] at hx
      rcases List.mem_cons.mp hx with rfl | hx
      · exact List.mem_cons_self _ _
      · exact List.mem_cons_of_mem _ (ihl k₀ hx)

theorem eraseKey_nodup {V : Type} (m : List (String × V)) (k : String)
    (h : (m.map Prod.fst).Nodup) : ((eraseKey m k).map Prod.fst).Nodup := by
  induction m with
  | nil => exact List.nodup_nil
  | cons p rest ih =>
    obtain ⟨a, v⟩ := p
    simp only [List.map_cons, List.nodup_cons] at h
    by_cases ha : a = k
    · subst ha
      simpa [eraseKey] using h.2
    · simp only [eraseKey, if_neg ha, List.map_cons, List.nodup_cons]
      refine ⟨?_, ih h.2⟩
      intro hmem
      apply h.1
      exact List.map_subset Prod.fst (fun x hx => eraseKey_subset rest k hx) hmem

theorem findVal_eraseKey_none {V : Type} (m : List (String × V)) (k k' : String)
    (h : findVal m k = none) : findVal (eraseKey m k') k = none := by
  by_cases hk : k = k'
  · subst hk
    induction m with
    | nil => rfl
    | cons p rest ih =>
      obtain ⟨a, v⟩ := p
      by_cases ha : a = k
      · subst ha
        simp [findVal] at h
      · simp only [findVal, if_neg ha] at h
        simp [eraseKey, findVal, ha, ih h]
  · rw [findVal_eraseKey_ne m k' k (by exact hk)]
    exact h

theorem findVal_append {V : Type} (m₁ m₂ : List (String × V)) (k : String) :
    findVal (m₁ ++ m₂) k =
      match findVal m₁ k with
      | some v => some v
      | none => findVal m₂ k := by
  induction m₁ with
  | nil => rfl
  | cons p rest ih =>
    obtain ⟨a, v⟩ := p
    by_cases ha : a = k
    · simp [findVal, ha]
    · simp [findVal, ha, ih]

theorem findVal_map_replace_ne {V : Type} (m : List (String × V)) (k k' : String)
    (v : V) (h : k ≠ k') :
    findVal (m.map fun p => if p.1 = k' then (k', v) else p) k = findVal m k := by
  induction m with
  | nil => rfl
  | cons p rest ih =>
    obtain ⟨a, b⟩ := p
    by_cases ha : a = k'
    · subst ha
      simp only [List.map_cons, if_pos rfl]
      rw [findVal, if_neg fun hc => h hc.symm, findVal, if_neg fun hc => h hc.symm, ih]
    · simp only [List.map_cons, if_neg ha]
      rw [findVal, findVal, ih]

theorem dictSet_findVal_ne {V : Type} (m : List (String × V)) (k k' : String)
    (v : V) (h : k ≠ k') : findVal (dictSet m k' v) k = findVal m k := by
  unfold dictSet
  by_cases hs : (findVal m k').isSome
  · rw [if_pos hs]
    exact findVal_map_replace_ne m k k' v h
  · rw [if_neg hs, findVal_append]
    cases hm : findVal m k with
    | some u => rfl
    | none =>
      rw [findVal, if_neg fun hc => h hc.symm]
      rfl

/-- Sequence of mandatory `pop`-based overrides: each `(src, dst)` pair pops
`src` from the source dict and adds `dst` with the popped value, in order,
threading the shrinking source dict — exactly what the dict literal of
stem overrides in the conversion scripts does. -/
def applyPops {V : Type} : List (String × V) → List (String × String) →
    Except String (List (String × V) × List (String × V))
  | w, [] => .ok ([], w)
  | w, (src, dst) :: rest => do
    let (v, w₁) ← popKey w src
    let (bb, w₂) ← applyPops w₁ rest
    pure ((dst, v) :: bb, w₂)

/-- The mandatory stem overrides of `convert_torchvision_resnet.py` (lines
42-47), in source evaluation order. -/
def STEM_SPECS_TV : List (String × String) :=
  [("bn1.bias", "stem.norm.bias"),
   ("bn1.num_batches_tracked", "stem.norm.num_batches_tracked"),
   ("bn1.running_mean", "stem.norm.running_mean"),
   ("bn1.running_var", "stem.norm.running_var"),
   ("bn1.weight", "stem.norm.weight"),
   ("conv1.weight", "stem.conv.weight")]

/-- The optional head overrides of `convert_torchvision_resnet.py` (lines
49-52): pop `fc.bias` and `fc.weight` only when present. -/
def headPhase {V : Type} (bb w : List (String × V)) :
    List (String × V) × List (String × V) :=
  let (ob, w) := popOpt w "fc.bias"
  let bb := match ob with
    | some v => dictSet bb "head.proj.bias" v
    | none => bb
  let (ow, w) := popOpt w "fc.weight"
  let bb := match ow with
    | some v => dictSet bb "head.proj.weight" v
    | none => bb
  (bb, w)

/-- Embeds the stem/head override phase of `convert_torchvision_resnet.py`
(lines 40-52): the mandatory stem pops followed by the optional head pops,
returning the started output dict and the remaining source dict. -/
def buildOverridesTV {V : Type} (w : List (String × V)) :
    Except String (List (String × V) × List (String × V)) := do
  let (bb, w₁) ← applyPops w STEM_SPECS_TV
  pure (headPhase bb w₁)

theorem applyPops_error {V : Type} :
    ∀ (specs : List (String × String)) (w : List (String × V)),
      (∃ k ∈ specs.map Prod.fst, findVal w k = none) →
      ∃ e, applyPops w specs = .error e := by
  intro specs
  induction specs with
  | nil =>
    rintro w ⟨k, hk, -⟩
    simp at hk
  | cons sd rest ih =>
    rintro w ⟨k, hk, hnone⟩
    obtain ⟨src, dst⟩ := sd
    rw [List.map_cons, List.mem_cons] at hk
    cases hfind : findVal w src with
    | none =>
      exact ⟨"KeyError: \x27" ++ src ++ "\x27",
        by simp [applyPops, popKey, hfind, Bind.bind, Except.bind]⟩
    | some v =>
      have hksrc : k ≠ src := by
        rintro rfl
        rw [hfind] at hnone
        cases hnone
      have hk' : k ∈ rest.map Prod.fst := by
        rcases hk with h1 | h2
        · exact absurd h1 hksrc
        · exact h2
      have hnone' : findVal (eraseKey w src) k = none := by
        rw [findVal_eraseKey_ne w src k hksrc]
        exact hnone
      obtain ⟨e, he⟩ := ih (eraseKey w src) ⟨k, hk', hnone'⟩
      exact ⟨e, by simp [applyPops, popKey, hfind, he, Bind.bind, Except.bind]⟩

theorem applyPops_none_preserved {V : Type} (k : String) :
    ∀ (specs : List (String × String)) (w bb w' : List (String × V)),
      applyPops w specs = .ok (bb, w') → findVal w k = none → findVal w' k = none := by
  intro specs
  induction specs with
  | nil =>
    intro w bb w' hok hn
    simp [applyPops] at hok
    rw [← hok.2]
    exact hn
  | cons sd rest ih =>
    intro w bb w' hok hn
    obtain ⟨src, dst⟩ := sd
    cases hfind : findVal w src with
    | none => simp [applyPops, popKey, hfind, Bind.bind, Except.bind] at hok
    | some v =>
      simp only [applyPops, popKey, hfind, Bind.bind, Except.bind] at hok
      cases happ : applyPops (eraseKey w src) rest with
      | error e =>
        rw [happ] at hok
        cases hok
      | ok p =>
        obtain ⟨bb₁, w₁⟩ := p
        rw [happ] at hok
        simp only [pure, Except.pure, Except.ok.injEq, Prod.mk.injEq] at hok
        rw [← hok.2]
        exact ih (eraseKey w src) bb₁ w₁ happ (findVal_eraseKey_none w k src hn)

theorem applyPops_ok {V : Type} :
    ∀ (specs : List (String × String)) (w : List (String × V)),
      (∀ k ∈ specs.map Prod.fst, (findVal w k).isSome) →
      (w.map Prod.fst).Nodup →
      (specs.map Prod.fst).Nodup →
      (specs.map Prod.snd).Nodup →
      ∃ bb w', applyPops w specs = .ok (bb, w') ∧
        (∀ k ∈ specs.map Prod.fst, findVal w' k = none) ∧
        (∀ p ∈ specs, findVal bb p.2 = findVal w p.1) := by
  intro specs
  induction specs with
  | nil =>
    intro w _ _ _ _
    exact ⟨[], w, rfl, by simp, by simp⟩
  | cons sd rest ih =>
    intro w hsome hw hfst hsnd
    obtain ⟨src, dst⟩ := sd
    simp only [List.map_cons, List.nodup_cons] at hfst hsnd
    have hsrc := hsome src (by simp)
    obtain ⟨v, hfind⟩ := Option.isSome_iff_exists.mp hsrc
    have hsome' : ∀ k ∈ rest.map Prod.fst, (findVal (eraseKey w src) k).isSome := by
      intro k hk
      have hksrc : k ≠ src := fun hc => hfst.1 (hc ▸ hk)
      rw [findVal_eraseKey_ne w src k hksrc]
      exact hsome k (List.mem_cons_of_mem _ hk)
    obtain ⟨bb₁, w', hok₁, hnone₁, hvals₁⟩ :=
      ih (eraseKey w src) hsome' (eraseKey_nodup w src hw) hfst.2 hsnd.2
    refine ⟨(dst, v) :: bb₁, w', ?_, ?_, ?_⟩
    · simp [applyPops, popKey, hfind, hok₁, Bind.bind, Except.bind, pure, Except.pure]
    · intro k hk
      rw [List.map_cons, List.mem_cons] at hk
      rcases hk with rfl | hk
      · exact applyPops_none_preserved _ rest _ bb₁ w' hok₁
          (findVal_eraseKey_self w _ hw)
      · exact hnone₁ k hk
    · intro p hp
      rcases List.mem_cons.mp hp with rfl | hp
      · rw [findVal, if_pos rfl, hfind]
      · have hpd : p.2 ≠ dst := by
          intro hc
          exact hsnd.1 (hc ▸ List.mem_map_of_mem Prod.snd hp)
        have hps : p.1 ≠ src := by
          intro hc
          exact hfst.1 (hc ▸ List.mem_map_of_mem Prod.fst hp)
        rw [findVal, if_neg fun hc => hpd hc.symm, hvals₁ p hp,
          findVal_eraseKey_ne w src p.1 hps]

theorem popOpt_snd_none {V : Type} (m : List (String × V)) (k k' : String)
    (h : findVal m k = none) : findVal (popOpt m k').2 k = none := by
  unfold popOpt
  cases hf : findVal m k' with
  | some v => exact findVal_eraseKey_none m k k' h
  | none => exact h

theorem headPhase_snd_none {V : Type} (bb w : List (String × V)) (k : String)
    (hk : findVal w k = none) : findVal (headPhase bb w).2 k = none := by
  unfold headPhase
  rcases hfb : popOpt w "fc.bias" with ⟨ob, w₂⟩
  have hw₂ : findVal w₂ k = none := by
    have := popOpt_snd_none w k "fc.bias" hk
    rw [hfb] at this
    exact this
  rcases hfw : popOpt w₂ "fc.weight" with ⟨ow, w₃⟩
  have hw₃ : findVal w₃ k = none := by
    have := popOpt_snd_none w₂ k "fc.weight" hw₂
    rw [hfw] at this
    exact this
  simp only [hfb, hfw]
  cases ob <;> cases ow <;> exact hw₃

theorem headPhase_fst_ne {V : Type} (bb w : List (String × V)) (d : String)
    (hd1 : d ≠ "head.proj.bias") (hd2 : d ≠ "head.proj.weight") :
    findVal (headPhase bb w).1 d = findVal bb d := by
  unfold headPhase
  rcases hfb : popOpt w "fc.bias" with ⟨ob, w₂⟩
  rcases hfw : popOpt w₂ "fc.weight" with ⟨ow, w₃⟩
  simp only [hfb, hfw]
  cases ob with
  | none =>
    cases ow with
    | none => rfl
    | some v => exact dictSet_findVal_ne bb d _ v hd2
  | some v =>
    cases ow with
    | none => exact dictSet_findVal_ne bb d _ v hd1
    | some v' =>
      rw [dictSet_findVal_ne _ d _ v' hd2, dictSet_findVal_ne bb d _ v hd1]

/-- C9: every mandatory stem override pops its named source key — the
conversion fails with a `KeyError` when any of them is absent, and on
success each popped key is gone from the remaining map and its tensor sits
under the new stem name — while the optional head keys `fc.bias` and
`fc.weight` impose no requirement, so a feature-only checkpoint with all
stem keys present converts successfully. -/
theorem stem_head_overrides {V : Type} (w : List (String × V))
    (hnodup : (w.map Prod.fst).Nodup) :
    ((∃ k ∈ STEM_SPECS_TV.map Prod.fst, findVal w k = none) →
        ∃ e, buildOverridesTV w = .error e) ∧
      ((∀ k ∈ STEM_SPECS_TV.map Prod.fst, (findVal w k).isSome) →
        ∃ bb rem, buildOverridesTV w = .ok (bb, rem) ∧
          (∀ k ∈ STEM_SPECS_TV.map Prod.fst, findVal rem k = none) ∧
          (∀ p ∈ STEM_SPECS_TV, findVal bb p.2 = findVal w p.1)) := by
  constructor
  · intro hmiss
    obtain ⟨e, he⟩ := applyPops_error STEM_SPECS_TV w hmiss
    exact ⟨e, by simp [buildOverridesTV, he, Bind.bind, Except.bind]⟩
  · intro hall
    obtain ⟨bb₁, w₁, hok, hnone, hvals⟩ :=
      applyPops_ok STEM_SPECS_TV w hall hnodup (by decide) (by decide)
    refine ⟨(headPhase bb₁ w₁).1, (headPhase bb₁ w₁).2, ?_, ?_, ?_⟩
    · simp [buildOverridesTV, hok, Bind.bind, Except.bind, pure, Except.pure]
    · intro k hk
      exact headPhase_snd_none bb₁ w₁ k (hnone k hk)
    · intro p hp
      have hd : ∀ d ∈ STEM_SPECS_TV.map Prod.snd,
          d ≠ "head.proj.bias" ∧ d ≠ "head.proj.weight" := by decide
      have hd' := hd p.2 (List.mem_map_of_mem Prod.snd hp)
      rw [headPhase_fst_ne bb₁ w₁ p.2 hd'.1 hd'.2]
      exact hvals p hp

/-- Closed instance of the C9 theorem: a feature-only checkpoint holding
exactly the six stem tensors and no `fc` head converts successfully. -/
theorem stem_head_overrides_witness :
    (([("bn1.bias", (0 : Nat)), ("bn1.num_batches_tracked", 1),
        ("bn1.running_mean", 2), ("bn1.running_var", 3), ("bn1.weight", 4),
        ("conv1.weight", 5)].map Prod.fst).Nodup) ∧
      (∀ k ∈ STEM_SPECS_TV.map Prod.fst,
        (findVal [("bn1.bias", (0 : Nat)), ("bn1.num_batches_tracked", 1),
          ("bn1.running_mean", 2), ("bn1.running_var", 3), ("bn1.weight", 4),
          ("conv1.weight", 5)] k).isSome) ∧
      (∃ bb rem,
        buildOverridesTV [("bn1.bias", (0 : Nat)), ("bn1.num_batches_tracked", 1),
          ("bn1.running_mean", 2), ("bn1.running_var", 3), ("bn1.weight", 4),
          ("conv1.weight", 5)] = .ok (bb, rem) ∧
          (∀ k ∈ STEM_SPECS_TV.map Prod.fst, findVal rem k = none) ∧
          (∀ p ∈ STEM_SPECS_TV,
            findVal bb p.2 =
              findVal [("bn1.bias", (0 : Nat)), ("bn1.num_batches_tracked", 1),
                ("bn1.running_mean", 2), ("bn1.running_var", 3), ("bn1.weight", 4),
                ("conv1.weight", 5)] p.1)) :=
  ⟨by decide, by decide,
    (stem_head_overrides [("bn1.bias", (0 : Nat)), ("bn1.num_batches_tracked", 1),
      ("bn1.running_mean", 2), ("bn1.running_var", 3), ("bn1.weight", 4),
      ("conv1.weight", 5)] (by decide)).2 (by decide)⟩

/-- Embeds the override loop of the CLI `meta` command (`_cli.py` lines
176-180): an override whose value is the empty string or `None` deletes the
key (`del meta[k]`, a `KeyError` when absent), any other value is assigned. -/
def applyOverrides : List (String × String) → List (String × Option String) →
    Except String (List (String × String))
  | m, [] => .ok m
  | m, (k, v) :: rest =>
    match v with
    | none =>
      match findVal m k with
      | some _ => applyOverrides (eraseKey m k) rest
      | none => .error ("KeyError: \x27" ++ k ++ "\x27")
    | some s =>
      if s = "" then
        match findVal m k with
        | some _ => applyOverrides (eraseKey m k) rest
        | none => .error ("KeyError: \x27" ++ k ++ "\x27")
      else
        applyOverrides (dictSet m k s) rest

/-- Result of a completed `meta` command: the metadata map that was printed
as JSON, and the metadata map written back to the file, when any. -/
structure MetaCmdOut where
  printed : List (String × String)
  written : Option (List (String × String))

/-- Embeds the CLI `meta` command (`_cli.py` lines 172-192) given the
metadata loaded from the file: apply the overrides (a raised `KeyError`
propagates, so nothing is printed or written), print the result, then write
the file only when overrides were supplied and the operator confirmed
(`yes` stands for the flag or the interactive confirmation). -/
def meta_cmd (fileMeta : List (String × String))
    (overrides : List (String × Option String)) (yes : Bool) :
    Except String MetaCmdOut := do
  let m ← applyOverrides fileMeta overrides
  if overrides.length = 0 then
    pure ⟨m, none⟩
  else if yes then
    pure ⟨m, some m⟩
  else
    pure ⟨m, none⟩

/-- Whether a `meta` command run wrote the weights file back. -/
def metaWrites (r : Except String MetaCmdOut) : Bool :=
  match r with
  | .ok o => o.written.isSome
  | .error _ => false

/-- C10: a `meta` override with empty-string or `None` value deletes the key
from the loaded metadata before printing, and when the key is absent the
command fails with an uncaught `KeyError` and writes no file. -/
theorem meta_cmd_override_delete (m : List (String × String)) (k : String)
    (v : Option String) (yes : Bool) (hnodup : (m.map Prod.fst).Nodup)
    (hdel : v = some "" ∨ v = none) :
    ((findVal m k).isSome →
        ∃ out, meta_cmd m [(k, v)] yes = .ok out ∧
          findVal out.printed k = none) ∧
      (findVal m k = none →
        meta_cmd m [(k, v)] yes = .error ("KeyError: \x27" ++ k ++ "\x27") ∧
          metaWrites (meta_cmd m [(k, v)] yes) = false) := by
  have happ : ∀ u, findVal m k = some u →
      applyOverrides m [(k, v)] = .ok (eraseKey m k) := by
    intro u hu
    rcases hdel with rfl | rfl
    · simp [applyOverrides, hu]
    · simp [applyOverrides, hu]
  have happn : findVal m k = none →
      applyOverrides m [(k, v)] = .error ("KeyError: \x27" ++ k ++ "\x27") := by
    intro hu
    rcases hdel with rfl | rfl
    · simp [applyOverrides, hu]
    · simp [applyOverrides, hu]
  constructor
  · intro hsome
    obtain ⟨u, hu⟩ := Option.isSome_iff_exists.mp hsome
    have hm : applyOverrides m [(k, v)] = .ok (eraseKey m k) := happ u hu
    have hself := findVal_eraseKey_self m k hnodup
    cases yes with
    | false =>
      exact ⟨⟨eraseKey m k, none⟩,
        by simp [meta_cmd, hm, Bind.bind, Except.bind, pure, Except.pure], hself⟩
    | true =>
      exact ⟨⟨eraseKey m k, some (eraseKey m k)⟩,
        by simp [meta_cmd, hm, Bind.bind, Except.bind, pure, Except.pure], hself⟩
  · intro hnone
    have hm := happn hnone
    have herr : meta_cmd m [(k, v)] yes = .error ("KeyError: \x27" ++ k ++ "\x27") := by
      simp [meta_cmd, hm, Bind.bind, Except.bind]
    exact ⟨herr, by simp [metaWrites, herr]⟩

/-- Closed instance of the C10 theorem: deleting the present key `a` works
and deleting the absent key `b` raises with no write. -/
theorem meta_cmd_override_delete_witness :
    (([("a", "1")].map Prod.fst).Nodup) ∧
      ((some "" = some "" ∨ (some "" : Option String) = none) ∧
        ((findVal [("a", "1")] "a").isSome →
            ∃ out, meta_cmd [("a", "1")] [("a", some "")] true = .ok out ∧
              findVal out.printed "a" = none) ∧
        (findVal [("a", "1")] "b" = none →
          meta_cmd [("a", "1")] [("b", some "")] true =
              .error ("KeyError: \x27" ++ "b" ++ "\x27") ∧
            metaWrites (meta_cmd [("a", "1")] [("b", some "")] true) = false)) :=
  ⟨by decide, Or.inl rfl,
    (meta_cmd_override_delete [("a", "1")] "a" (some "") true (by decide)
      (Or.inl rfl)).1,
    (meta_cmd_override_delete [("a", "1")] "b" (some "") true (by decide)
      (Or.inl rfl)).2⟩

/-- Opaque stand-in for the bound `torch.fx.GraphModule` the binder returns. -/
structure GraphModule where
  id : Nat
  deriving DecidableEq

/-- Embeds Python `sep.join(keys)`. -/
def pyJoin (sep : String) : List String → String
  | [] => ""
  | [k] => k
  | k :: ks => k ++ sep ++ pyJoin sep ks

/-- Embeds the per-list formatting of `load_model` (`_io.py` lines 133-136):
a bulleted block for a non-empty key list, `"(none)"` for an empty one. -/
def fmtKeys (keys : List String) : String :=
  if keys.length > 0 then "\n - " ++ pyJoin "\n - " keys else "(none)"

/-- Embeds the binding step of `load_model` (`_io.py` lines 131-143) given
the missing and unexpected key lists that the external
`load_state_dict(..., strict=False)` collaborator reported: raise a
`RuntimeError` enumerating both lists when their union is non-empty,
otherwise return the bound module. -/
def load_model_bind (path : String) (keys_miss keys_ndef : List String)
    (model : GraphModule) : Except String GraphModule :=
  if keys_miss.length + keys_ndef.length > 0 then
    .error ("RuntimeError: Found missing (" ++ toString keys_miss.length ++
      ") or undefined (" ++ toString keys_ndef.length ++
      ") weights in weights file: " ++ path ++ "\n\n Missing: " ++
      fmtKeys keys_miss ++ "\n\nUndefined: " ++ fmtKeys keys_ndef)
  else
    .ok model

theorem pyJoin_contains (sep : String) :
    ∀ (ks : List String) (k : String), k ∈ ks →
      ∃ u v, (pyJoin sep ks).data = u ++ k.data ++ v := by
  intro ks
  induction ks with
  | nil => intro k hk; cases hk
  | cons a rest ih =>
    intro k hk
    rw [List.mem_cons] at hk
    cases rest with
    | nil =>
      rcases hk with rfl | h
      · exact ⟨[], [], by simp [pyJoin]⟩
      · cases h
    | cons b rest' =>
      rcases hk with rfl | hk
      · exact ⟨[], (sep ++ pyJoin sep (b :: rest')).data,
          by simp [pyJoin, String.data_append]⟩
      · obtain ⟨u, v, hx⟩ := ih k hk
        exact ⟨a.data ++ sep.data ++ u, v,
          by simp [pyJoin, String.data_append, hx]⟩

theorem fmtKeys_contains (keys : List String) (k : String) (hk : k ∈ keys) :
    ∃ u v, (fmtKeys keys).data = u ++ k.data ++ v := by
  have hlen : keys.length > 0 := List.length_pos.mpr (List.ne_nil_of_mem hk)
  obtain ⟨u, v, hx⟩ := pyJoin_contains "\n - " keys k hk
  exact ⟨"\n - ".data ++ u, v, by simp [fmtKeys, hlen, String.data_append, hx]⟩

/-- C4: when the union of missing and unexpected keys is non-empty the
binding step fails with an error whose message contains every missing key
and every unexpected key and reports `(none)` for whichever list is empty;
when both lists are empty it returns the bound module. -/
theorem load_model_bind_reports (path : String) (miss ndef : List String)
    (model : GraphModule) :
    (miss.length + ndef.length > 0 →
      ∃ msg, load_model_bind path miss ndef model = .error msg ∧
        (∀ k ∈ miss, ∃ u v, msg.data = u ++ k.data ++ v) ∧
        (∀ k ∈ ndef, ∃ u v, msg.data = u ++ k.data ++ v) ∧
        (miss = [] → ∃ u v, msg.data = u ++ "(none)".data ++ v) ∧
        (ndef = [] → ∃ u v, msg.data = u ++ "(none)".data ++ v)) ∧
      (miss = [] → ndef = [] → load_model_bind path miss ndef model = .ok model) := by
  constructor
  · intro hpos
    refine ⟨_, by unfold load_model_bind; rw [if_pos hpos], ?_, ?_, ?_, ?_⟩
    · intro k hk
      obtain ⟨u, v, hx⟩ := fmtKeys_contains miss k hk
      exact ⟨("RuntimeError: Found missing (" ++ toString miss.length ++
          ") or undefined (" ++ toString ndef.length ++
          ") weights in weights file: " ++ path ++ "\n\n Missing: ").data ++ u,
        v ++ ("\n\nUndefined: " ++ fmtKeys ndef).data,
        by simp [String.data_append, hx]⟩
    · intro k hk
      obtain ⟨u, v, hx⟩ := fmtKeys_contains ndef k hk
      exact ⟨("RuntimeError: Found missing (" ++ toString miss.length ++
          ") or undefined (" ++ toString ndef.length ++
          ") weights in weights file: " ++ path ++ "\n\n Missing: " ++
          fmtKeys miss ++ "\n\nUndefined: ").data ++ u, v,
        by simp [String.data_append, hx]⟩
    · intro hmiss
      subst hmiss
      exact ⟨("RuntimeError: Found missing (" ++ toString (List.length ([] : List String)) ++
          ") or undefined (" ++ toString ndef.length ++
          ") weights in weights file: " ++ path ++ "\n\n Missing: ").data,
        ("\n\nUndefined: " ++ fmtKeys ndef).data,
        by simp [String.data_append, fmtKeys]⟩
    · intro hndef
      subst hndef
      exact ⟨("RuntimeError: Found missing (" ++ toString miss.length ++
          ") or undefined (" ++ toString (List.length ([] : List String)) ++
          ") weights in weights file: " ++ path ++ "\n\n Missing: " ++
          fmtKeys miss ++ "\n\nUndefined: ").data, [],
        by simp [String.data_append, fmtKeys]⟩
  · intro h1 h2
    subst h1
    subst h2
    rfl

/-- Closed instance of the C4 theorem: one missing key `a`, no unexpected
keys. -/
theorem load_model_bind_reports_witness :
    (["a"].length + ([] : List String).length > 0) ∧
      (∃ msg, load_model_bind "p" ["a"] [] ⟨0⟩ = .error msg ∧
        (∀ k ∈ ["a"], ∃ u v, msg.data = u ++ k.data ++ v) ∧
        (∀ k ∈ ([] : List String), ∃ u v, msg.data = u ++ k.data ++ v) ∧
        ((["a"] : List String) = [] → ∃ u v, msg.data = u ++ "(none)".data ++ v) ∧
        (([] : List String) = [] → ∃ u v, msg.data = u ++ "(none)".data ++ v)) :=
  ⟨by decide, (load_model_bind_reports "p" ["a"] [] ⟨0⟩).1 (by decide)⟩

end Backbones
